import Mathlib

/-!
Verification of the time-evolution circuit construction module
(`src/python/zquantum/core/evolution.py`).

The module builds quantum circuits approximating Trotterized time evolution
under a Hamiltonian given as a sum of Pauli terms, together with the
parameter-shift derivative circuits.

Modelling choices:
* Python/sympy scalars (evolution times, gate angles, term coefficients) are
  modelled by the inductive type `Scalar`: a rational literal (Python
  numbers), the constant `np.pi`, an opaque sympy symbol, and unevaluated
  arithmetic nodes.  Arithmetic between two plain numbers evaluates (as in
  Python); arithmetic touching a symbolic operand stays unevaluated (as in
  sympy).  Division of a plain number by the number zero raises
  `ZeroDivisionError`, which the `Scalar.divE` operation models in `Except`.
* `openfermion.QubitOperator` is modelled by its `terms` dict: an ordered
  association list from Pauli-word keys (lists of (qubit index, axis) pairs)
  to coefficients.  `get_operators` yields one singleton operator per entry,
  in order.
* A circuit is its ordered list of gate operations; `+` on circuits is list
  append and the empty circuit is `[]`.
* Fallible Python code (raised exceptions) is modelled with `Except Err`.
-/

namespace Evolution

/-- Pauli axis of one tensor factor of a Pauli word (the openfermion action
strings "X", "Y", "Z"). -/
inductive Axis where
  | X
  | Y
  | Z
deriving DecidableEq, Repr

/-- Exceptions raised by the Python module. -/
inductive Err where
  | valueError (msg : String)
  | typeError (msg : String)
  | zeroDivisionError
deriving DecidableEq, Repr

/-- Python/sympy numeric-or-symbolic scalar values. -/
inductive Scalar where
  | rat (q : ℚ)
  | pi
  | sym (s : String)
  | add (a b : Scalar)
  | mul (a b : Scalar)
  | div (a b : Scalar)
  | neg (a : Scalar)
deriving DecidableEq, Repr

namespace Scalar

/-- A scalar that contains no free sympy symbol: in Python such a value is a
plain number (possibly obtained from `np.pi`), so coercions on it succeed. -/
def numericLike : Scalar → Bool
  | rat _ => true
  | pi => true
  | sym _ => false
  | add a b => a.numericLike && b.numericLike
  | mul a b => a.numericLike && b.numericLike
  | div a b => a.numericLike && b.numericLike
  | neg a => a.numericLike

/-- Python `+` on scalars: evaluates on two plain numbers, otherwise builds a
deferred sympy expression. -/
def addS : Scalar → Scalar → Scalar
  | rat a, rat b => rat (a + b)
  | a, b => add a b

/-- Python `*` on scalars: evaluates on two plain numbers, otherwise builds a
deferred sympy expression. -/
def mulS : Scalar → Scalar → Scalar
  | rat a, rat b => rat (a * b)
  | a, b => mul a b

/-- Python `/` on scalars, value part (used when no `ZeroDivisionError` is
raised): evaluates on two plain numbers, otherwise defers. -/
def divS : Scalar → Scalar → Scalar
  | rat a, rat b => rat (a / b)
  | a, b => div a b

/-- Python `/` on scalars: a plain number divided by the number zero raises
`ZeroDivisionError`; any other combination produces a value (sympy division
by zero yields `zoo` without raising). -/
def divE (a b : Scalar) : Except Err Scalar :=
  if a.numericLike ∧ b = rat 0 then .error .zeroDivisionError
  else .ok (a.divS b)

end Scalar

/-- A single gate operation bound to its qubit index (indices). -/
inductive Gate where
  | H (qubit : Nat)
  | RX (angle : Scalar) (qubit : Nat)
  | RZ (angle : Scalar) (qubit : Nat)
  | CNOT (control target : Nat)
deriving DecidableEq, Repr

/-- A circuit is its ordered list of operations. -/
abbrev Circuit := List Gate

/-- `openfermion.QubitOperator`, reduced to its ordered `terms` dict:
Pauli-word keys with their coefficients. -/
structure QubitOperator where
  terms : List (List (Nat × Axis) × Scalar)
deriving DecidableEq, Repr

/-- `QubitOperator.get_operators`: yield a singleton operator per stored
term, in the dict's order. -/
def get_operators (hamiltonian : QubitOperator) : List QubitOperator :=
  hamiltonian.terms.map (fun t => ⟨[t]⟩)

/-- `list(term.terms.values())[0]`: the coefficient of the first stored term.
Callers always pass operators produced by `get_operators`, which hold exactly
one entry. -/
def first_coefficient (term : QubitOperator) : Scalar :=
  (term.terms.headD ([], Scalar.rat 0)).2

/-- The constant `np.pi / 2` used for the Y-basis change. -/
def half_pi : Scalar := .div .pi (.rat 2)

/-- The constant `-np.pi / 2` used for the Y-basis reversal. -/
def neg_half_pi : Scalar := .div (.neg .pi) (.rat 2)

/-- Basis-change gate contributed by one Pauli factor: `H` for `X`,
`RX(pi/2)` for `Y`, nothing for `Z` (the `base_changes.append` branch of the
loop in `time_evolution_for_term`). -/
def base_change_gate : Nat × Axis → Option Gate
  | (q, .X) => some (.H q)
  | (q, .Y) => some (.RX half_pi q)
  | (_, .Z) => none

/-- Basis-reversal gate contributed by one Pauli factor (the
`base_reversals.append` branch): `H` for `X`, `RX(-pi/2)` for `Y`. -/
def base_reversal_gate : Nat × Axis → Option Gate
  | (q, .X) => some (.H q)
  | (q, .Y) => some (.RX neg_half_pi q)
  | (_, .Z) => none

/-- Body of `time_evolution_for_term` after the single-term check: the loop
fills `base_changes`, `base_reversals`, `cnot_gates` (a CNOT from each qubit
to the next one in term order) and the central `RZ(2 * time * coefficient)`
on the term's last qubit, then emits
changes ++ cnots ++ RZ ++ reversed cnots ++ reversals.
An empty term returns the empty circuit before the loop. -/
def pauli_term_circuit (term_components : List (Nat × Axis))
    (coefficient time : Scalar) : Circuit :=
  match term_components with
  | [] => []
  | _ =>
    let qubit_indices := term_components.map Prod.fst
    let base_changes := term_components.filterMap base_change_gate
    let base_reversals := term_components.filterMap base_reversal_gate
    let cnot_gates := (qubit_indices.zip qubit_indices.tail).map
      (fun p => Gate.CNOT p.1 p.2)
    let central_gate := Gate.RZ
      (Scalar.mulS (Scalar.mulS (.rat 2) time) coefficient)
      (qubit_indices.getLastD 0)
    base_changes ++ cnot_gates ++
      central_gate :: (cnot_gates.reverse ++ base_reversals)

/-- `time_evolution_for_term`: raises unless the operator holds exactly one
term, otherwise builds the exponentiation circuit for it. -/
def time_evolution_for_term (term : QubitOperator) (time : Scalar) :
    Except Err Circuit :=
  match term.terms with
  | [(term_components, coefficient)] =>
      .ok (pauli_term_circuit term_components coefficient time)
  | _ => .error (.valueError "This function works only on a single term.")

/-- The generator expression inside `time_evolution`: map each generated term
to `time_evolution_for_term(term, time / trotter_order)`, propagating the
first raised exception. -/
def evolution_gen (time : Scalar) (trotter_order : Nat) :
    List QubitOperator → Except Err (List Circuit)
  | [] => .ok []
  | term :: rest => do
      let angle ← Scalar.divE time (Scalar.rat (trotter_order : ℚ))
      let c ← time_evolution_for_term term angle
      let cs ← evolution_gen time trotter_order rest
      .ok (c :: cs)

/-- `reduce(operator.add, cs)` on circuits: raises `TypeError` on an empty
sequence (no initial value is supplied), otherwise left-folds `+`. -/
def reduce_add (cs : List Circuit) : Except Err Circuit :=
  match cs with
  | [] => .error (.typeError "reduce() of empty iterable with no initial value")
  | c :: rest => .ok (rest.foldl (· ++ ·) c)

/-- `time_evolution`: check the method tag, then
`reduce(operator.add, (time_evolution_for_term(term, time / trotter_order)
for _ in range(trotter_order) for term in terms))`. -/
def time_evolution (hamiltonian : QubitOperator) (time : Scalar)
    (method : String) (trotter_order : Nat) : Except Err Circuit :=
  if method ≠ "Trotter" then
    .error (.valueError ("Currently the method " ++ method ++
      " is not supported."))
  else
    evolution_gen time trotter_order
      ((List.range trotter_order).flatMap
        (fun _ => get_operators hamiltonian)) >>= reduce_add

/-- `_generate_circuit_sequence`: concatenate `length` copies of
`repeated_circuit`, with the copy at index `position` replaced by
`different_circuit`; raises when `position >= length`. -/
def _generate_circuit_sequence (repeated_circuit different_circuit : Circuit)
    (length : Nat) (position : Int) : Except Err Circuit :=
  if (length : Int) ≤ position then
    .error (.valueError ("Position " ++ toString position ++
      " should be < " ++ toString length))
  else
    .ok (((List.range length).map
      (fun (i : Nat) => if (i : Int) = position then different_circuit
                        else repeated_circuit)).flatten)

/-- Inner loop of the derivative builder
(`for j, term_2 in enumerate(terms): output += ...`), carrying the running
index `j`: term `i` is evolved at angle `(time + shift) / trotter_order`,
every other term at `time / trotter_order`. -/
def perturbed_terms (time shift : Scalar) (trotter_order : Nat) (i : Nat) :
    List QubitOperator → Nat → Except Err Circuit
  | [], _ => .ok []
  | term_2 :: rest, j => do
      let angle ← if i = j then
          Scalar.divE (Scalar.addS time shift) (Scalar.rat (trotter_order : ℚ))
        else
          Scalar.divE time (Scalar.rat (trotter_order : ℚ))
      let c ← time_evolution_for_term term_2 angle
      let cs ← perturbed_terms time shift trotter_order i rest (j + 1)
      .ok (c ++ cs)

/-- One iteration of the `for factor in factors` loop of
`time_evolution_derivatives`: extract `r = coefficient / trotter_order`
(terms from `get_operators` are `QubitOperator`s, so the coefficient is taken
from the terms dict and no numeric coercion happens), record the output
factor `r * factor`, compute `shift = factor * (np.pi / (4.0 * r))` and build
the perturbed one-step circuit. -/
def single_shift (terms : List QubitOperator) (time : Scalar)
    (trotter_order : Nat) (i : Nat) (term_1 : QubitOperator) (factor : ℚ) :
    Except Err (Circuit × Scalar) := do
  let r ← Scalar.divE (first_coefficient term_1) (Scalar.rat (trotter_order : ℚ))
  let output_factor := Scalar.mulS r (Scalar.rat factor)
  let base ← Scalar.divE Scalar.pi (Scalar.mulS (Scalar.rat 4) r)
  let shift := Scalar.mulS (Scalar.rat factor) base
  let output ← perturbed_terms time shift trotter_order i terms 0
  .ok (output, output_factor)

/-- Outer loop of the derivative builder
(`for i, term_1 in enumerate(terms): for factor in [1.0, -1.0]: ...`),
carrying the running index `i`; collects the (circuit, factor) pairs in
term-then-sign order with `+1` before `-1`. -/
def derivative_pairs (terms : List QubitOperator) (time : Scalar)
    (trotter_order : Nat) : List QubitOperator → Nat →
    Except Err (List (Circuit × Scalar))
  | [], _ => .ok []
  | term_1 :: rest, i => do
      let p1 ← single_shift terms time trotter_order i term_1 1
      let p2 ← single_shift terms time trotter_order i term_1 (-1)
      let ps ← derivative_pairs terms time trotter_order rest (i + 1)
      .ok (p1 :: p2 :: ps)

/-- Inner loop of the `trotter_order > 1` branch: for a fixed repetition slot
`position`, splice each perturbed circuit into that slot of the repeated
sequence, pairing it with its factor. -/
def splice_inner (repeated_circuit : Circuit) (length position : Nat) :
    List (Scalar × Circuit) → Except Err (List (Circuit × Scalar))
  | [] => .ok []
  | (factor, different_circuit) :: rest => do
      let c ← _generate_circuit_sequence repeated_circuit different_circuit
        length (position : Int)
      let r ← splice_inner repeated_circuit length position rest
      .ok ((c, factor) :: r)

/-- Outer loop of the `trotter_order > 1` branch: iterate the repetition
slots in order. -/
def splice_outer (repeated_circuit : Circuit) (length : Nat)
    (pairs : List (Scalar × Circuit)) : List Nat →
    Except Err (List (Circuit × Scalar))
  | [] => .ok []
  | position :: rest => do
      let xs ← splice_inner repeated_circuit length position pairs
      let ys ← splice_outer repeated_circuit length pairs rest
      .ok (xs ++ ys)

/-- `time_evolution_derivatives`: check the method tag, build the
single-Trotter-step derivative pairs, and for `trotter_order > 1`
additionally splice each perturbed step into every repetition slot of the
repeated one-step circuit. -/
def time_evolution_derivatives (hamiltonian : QubitOperator) (time : Scalar)
    (method : String) (trotter_order : Nat) :
    Except Err (List Circuit × List Scalar) :=
  if method ≠ "Trotter" then
    .error (.valueError ("The method " ++ method ++
      " is currently not supported."))
  else do
    let pairs ← derivative_pairs (get_operators hamiltonian) time
      trotter_order (get_operators hamiltonian) 0
    if trotter_order > 1 then do
      let repeated_circuit ← time_evolution hamiltonian time "Trotter" 1
      let seq ← splice_outer repeated_circuit trotter_order
        ((pairs.map Prod.snd).zip (pairs.map Prod.fst))
        (List.range trotter_order)
      .ok (seq.map Prod.fst, seq.map Prod.snd)
    else
      .ok (pairs.map Prod.fst, pairs.map Prod.snd)

/-! ### Spec-side formulations used by the claims -/

/-- Claim-side description of the basis-change pass: for each non-Z factor in
term order, `H` on an X factor and `RX(pi/2)` on a Y factor. -/
def basis_change_list (comps : List (Nat × Axis)) : Circuit :=
  (comps.filter (fun p => decide (p.2 ≠ Axis.Z))).map
    (fun p => if p.2 = Axis.X then Gate.H p.1 else Gate.RX half_pi p.1)

/-- Claim-side description of the basis-reversal pass: for each non-Z factor
in term order, `H` on an X factor and `RX(-pi/2)` on a Y factor. -/
def basis_reversal_list (comps : List (Nat × Axis)) : Circuit :=
  (comps.filter (fun p => decide (p.2 ≠ Axis.Z))).map
    (fun p => if p.2 = Axis.X then Gate.H p.1 else Gate.RX neg_half_pi p.1)

/-- Claim-side description of the CNOT staircase: for i = 0 .. k-2, a CNOT
from the qubit at position i to the qubit at position i+1 of the term. -/
def cnot_staircase (comps : List (Nat × Axis)) : Circuit :=
  (List.range (comps.length - 1)).map
    (fun i => Gate.CNOT ((comps.map Prod.fst).getD i 0)
                        ((comps.map Prod.fst).getD (i + 1) 0))

/-- Claim-side parameter-shift formula:
`shift = s * (pi / (4 * (c / trotter_order)))` for shift sign `s` and
numeric term coefficient `c`. -/
def shift_spec (s c : ℚ) (r : Nat) : Scalar :=
  Scalar.mulS (.rat s)
    (Scalar.divS .pi (Scalar.mulS (.rat 4) (.rat (c / (r : ℚ)))))

/-- Claim-side value of one derivative pair for term index `i`, numeric
coefficient `c` and shift sign `s`, over the term list `L`: the perturbed
one-step circuit (term `i` at angle `(time + shift) / trotter_order`, every
other term at `time / trotter_order`) paired with the factor
`(c / trotter_order) * s`. -/
def single_shift_value (L : List (List (Nat × Axis) × Scalar)) (t : Scalar)
    (r : Nat) (i : Nat) (c s : ℚ) : Circuit × Scalar :=
  ((L.enum.map (fun q => pauli_term_circuit q.2.1 q.2.2
      (if i = q.1 then
        Scalar.divS (Scalar.addS t (shift_spec s c r)) (.rat (r : ℚ))
       else Scalar.divS t (.rat (r : ℚ))))).flatten,
   .rat (c / (r : ℚ) * s))

/-- Claim-side factor list of the derivative synthesizer for a Hamiltonian
with numeric coefficients: one copy per repetition slot of the per-term
factors `(c / trotter_order) * s`, in term-then-sign order with `+1` before
`-1`. -/
def factors_spec (L : List (List (Nat × Axis) × ℚ)) (r : Nat) :
    List Scalar :=
  (List.range r).flatMap (fun _ => L.flatMap (fun p =>
    [.rat (p.2 / (r : ℚ) * 1), .rat (p.2 / (r : ℚ) * (-1))]))

/-- Success value of the splicing helper for a valid slot. -/
def splice_value (repeated different : Circuit) (len pos : Nat) : Circuit :=
  ((List.range len).map
    (fun i => if i = pos then different else repeated)).flatten

/-- Decidable equality for modelled exception results, so concrete runs of
the embedded functions can be checked by `decide`. -/
instance exceptDecEq {ε α : Type} [DecidableEq ε] [DecidableEq α] :
    DecidableEq (Except ε α) := fun x y =>
  match x, y with
  | .ok a, .ok b =>
      if h : a = b then isTrue (by rw [h])
      else isFalse (fun hc => h (Except.ok.inj hc))
  | .error e, .error f =>
      if h : e = f then isTrue (by rw [h])
      else isFalse (fun hc => h (Except.error.inj hc))
  | .ok _, .error _ => isFalse (fun hc => Except.noConfusion hc)
  | .error _, .ok _ => isFalse (fun hc => Except.noConfusion hc)

/-! ### Basic lemmas about the `Except` monad and scalar operations -/

@[simp]
theorem ok_bind {α β : Type} (a : α) (f : α → Except Err β) :
    (Except.ok a >>= f : Except Err β) = f a := rfl

@[simp]
theorem error_bind {α β : Type} (e : Err) (f : α → Except Err β) :
    (Except.error e >>= f : Except Err β) = Except.error e := rfl

theorem Scalar.divE_of_ne {a b : Scalar} (h : b ≠ .rat 0) :
    Scalar.divE a b = .ok (a.divS b) := by
  unfold Scalar.divE
  rw [if_neg]
  intro hc
  exact h hc.2

theorem rat_natCast_ne_zero {r : Nat} (h : r ≠ 0) :
    Scalar.rat (r : ℚ) ≠ Scalar.rat 0 := by
  intro hc
  apply h
  have : (r : ℚ) = 0 := by injection hc
  exact_mod_cast this

/-! ### List helper lemmas -/

theorem map_const_replicate {α β : Type} (b : β) (l : List α) :
    l.map (fun _ => b) = List.replicate l.length b := by
  induction l with
  | nil => rfl
  | cons x xs ih => simp [ih, List.replicate_succ]

theorem range_map_ite {α : Type} (R D : α) :
    ∀ (len pos : Nat), pos < len →
      (List.range len).map (fun i => if i = pos then D else R) =
        List.replicate pos R ++ D :: List.replicate (len - pos - 1) R := by
  intro len
  induction len with
  | zero => intro pos h; exact absurd h (Nat.not_lt_zero pos)
  | succ n ih =>
    intro pos h
    rw [List.range_succ_eq_map, List.map_cons, List.map_map]
    cases pos with
    | zero =>
      have h1 : ((fun i => if i = 0 then D else R) ∘ Nat.succ) =
          (fun _ : Nat => R) := by
        funext i
        simp
      rw [h1, map_const_replicate, List.length_range]
      simp
    | succ p =>
      have hp : p < n := Nat.succ_lt_succ_iff.mp h
      have h1 : ((fun i => if i = p + 1 then D else R) ∘ Nat.succ) =
          (fun i => if i = p then D else R) := by
        funext i
        simp
      rw [h1, ih p hp]
      have h0 : ¬((0 : Nat) = p + 1) := by omega
      simp [h0, List.replicate_succ]

/-! ### Claim: splicing helper with a valid slot, and its range check (C5) -/

/-- C5: for `position < length`, `_generate_circuit_sequence` concatenates
`length` instances, the one at index `position` being the different circuit
and every other one the repeated circuit; for `position >= length` it raises
the range error naming both values. -/
theorem generate_circuit_sequence_spec (R D : Circuit) (len : Nat) :
    (∀ pos : Nat, pos < len →
      _generate_circuit_sequence R D len (pos : Int) =
        .ok ((List.replicate pos R).flatten ++ D ++
          (List.replicate (len - pos - 1) R).flatten)) ∧
    (∀ pos : Int, (len : Int) ≤ pos →
      _generate_circuit_sequence R D len pos =
        .error (.valueError ("Position " ++ toString pos ++
          " should be < " ++ toString len))) := by
  constructor
  · intro pos hlt
    unfold _generate_circuit_sequence
    rw [if_neg (by exact_mod_cast Nat.not_le_of_lt hlt)]
    have heq : ((List.range len).map
        (fun (i : Nat) => if (i : Int) = (pos : Int) then D else R)) =
        (List.range len).map (fun i => if i = pos then D else R) := by
      apply List.map_congr_left
      intro a _
      simp [Nat.cast_inj]
    rw [heq, range_map_ite R D len pos hlt]
    simp [List.flatten_append]
  · intro pos hge
    unfold _generate_circuit_sequence
    rw [if_pos hge]

/-- Witness for C5: `length = 3, position = 1` yields R + D + R, and
`position = 3` raises the range error. -/
theorem generate_circuit_sequence_spec_witness :
    ((1 : Nat) < 3 ∧
      _generate_circuit_sequence [Gate.H 0] [Gate.H 9] 3 ((1 : Nat) : Int) =
        .ok ((List.replicate 1 [Gate.H 0]).flatten ++ [Gate.H 9] ++
          (List.replicate (3 - 1 - 1) [Gate.H 0]).flatten)) ∧
    (((3 : Nat) : Int) ≤ (3 : Int) ∧
      _generate_circuit_sequence [Gate.H 0] [Gate.H 9] 3 (3 : Int) =
        .error (.valueError ("Position " ++ toString (3 : Int) ++
          " should be < " ++ toString (3 : Nat)))) :=
  ⟨⟨by decide, (generate_circuit_sequence_spec [Gate.H 0] [Gate.H 9] 3).1 1
      (by decide)⟩,
   ⟨by decide, (generate_circuit_sequence_spec [Gate.H 0] [Gate.H 9] 3).2 3
      (by decide)⟩⟩

/-! ### Claim: negative positions are silently accepted (C10) -/

/-- C10: a negative `position` passes the `position >= length` check, and
since no loop index equals it, the result is `length` copies of the repeated
circuit with the different circuit never included. -/
theorem negative_position_accepted (R D : Circuit) (len : Nat) (pos : Int)
    (h : pos < 0) :
    _generate_circuit_sequence R D len pos =
      .ok ((List.replicate len R).flatten) := by
  unfold _generate_circuit_sequence
  rw [if_neg (by omega)]
  have heq : ((List.range len).map
      (fun (i : Nat) => if (i : Int) = pos then D else R)) =
      (List.range len).map (fun _ => R) := by
    apply List.map_congr_left
    intro a _
    rw [if_neg]
    omega
  rw [heq, map_const_replicate, List.length_range]

/-- Witness for C10: `position = -1, length = 2` returns two copies of the
repeated circuit without raising. -/
theorem negative_position_accepted_witness :
    (-1 : Int) < 0 ∧
      _generate_circuit_sequence [Gate.H 0] [Gate.H 9] 2 (-1) =
        .ok ((List.replicate 2 [Gate.H 0]).flatten) :=
  ⟨by decide, negative_position_accepted [Gate.H 0] [Gate.H 9] 2 (-1)
    (by decide)⟩

/-! ### Claim: behaviour of `time_evolution` on an empty Hamiltonian (C6) -/

theorem flatMap_const_nil {α : Type} (l : List Nat) :
    (l.flatMap (fun _ => ([] : List α))) = [] := by
  induction l with
  | nil => rfl
  | cons x xs ih => simp [List.flatMap_cons, ih]

/-- Counterexample to C6 as stated: on the empty Hamiltonian with the
supported method and trotter order 1, `time_evolution` does not return the
empty circuit — `reduce` over the empty generator raises `TypeError`. -/
theorem time_evolution_empty_counterexample :
    time_evolution ⟨[]⟩ (.rat 1) "Trotter" 1 =
      .error (.typeError "reduce() of empty iterable with no initial value") := by
  decide

/-- C6 amended: for every time value and every trotter order,
`time_evolution` with method "Trotter" on the empty Hamiltonian raises
`TypeError` (from `reduce` of an empty sequence with no initial value), so
the unsupported-method error is not its only failure mode. -/
theorem time_evolution_empty_raises (t : Scalar) (r : Nat) :
    time_evolution ⟨[]⟩ t "Trotter" r =
      .error (.typeError "reduce() of empty iterable with no initial value") := by
  unfold time_evolution
  rw [if_neg (by simp)]
  have hg : (List.range r).flatMap (fun _ => get_operators ⟨[]⟩) = [] := by
    exact flatMap_const_nil (List.range r)
  rw [hg]
  rfl

/-! ### Claim: unsupported methods are rejected by both entry points (C7) -/

/-- C7: any method other than "Trotter" makes both `time_evolution` and
`time_evolution_derivatives` raise a `ValueError` whose message names the
rejected method, with no circuit or factor list returned. -/
theorem unsupported_method_raises (hamiltonian : QubitOperator) (t : Scalar)
    (r : Nat) (method : String) (h : method ≠ "Trotter") :
    time_evolution hamiltonian t method r =
      .error (.valueError ("Currently the method " ++ method ++
        " is not supported.")) ∧
    time_evolution_derivatives hamiltonian t method r =
      .error (.valueError ("The method " ++ method ++
        " is currently not supported.")) := by
  constructor
  · unfold time_evolution
    rw [if_pos h]
  · unfold time_evolution_derivatives
    rw [if_pos h]

/-- Witness for C7 at the spec's example method "Suzuki". -/
theorem unsupported_method_raises_witness :
    "Suzuki" ≠ "Trotter" ∧
    time_evolution ⟨[]⟩ (.rat 1) "Suzuki" 1 =
      .error (.valueError ("Currently the method " ++ "Suzuki" ++
        " is not supported.")) ∧
    time_evolution_derivatives ⟨[]⟩ (.rat 1) "Suzuki" 1 =
      .error (.valueError ("The method " ++ "Suzuki" ++
        " is currently not supported.")) :=
  ⟨by decide,
   (unsupported_method_raises ⟨[]⟩ (.rat 1) 1 "Suzuki" (by decide)).1,
   (unsupported_method_raises ⟨[]⟩ (.rat 1) 1 "Suzuki" (by decide)).2⟩

/-! ### Claim: gate emission order of `time_evolution_for_term` (C1) -/

theorem filterMap_base_change (comps : List (Nat × Axis)) :
    comps.filterMap base_change_gate = basis_change_list comps := by
  induction comps with
  | nil => rfl
  | cons p rest ih =>
    obtain ⟨q, a⟩ := p
    cases a <;>
      simp [basis_change_list, base_change_gate, List.filterMap_cons,
        List.filter_cons, ih]

theorem filterMap_base_reversal (comps : List (Nat × Axis)) :
    comps.filterMap base_reversal_gate = basis_reversal_list comps := by
  induction comps with
  | nil => rfl
  | cons p rest ih =>
    obtain ⟨q, a⟩ := p
    cases a <;>
      simp [basis_reversal_list, base_reversal_gate, List.filterMap_cons,
        List.filter_cons, ih]

theorem zip_tail_cnot (l : List Nat) :
    ((l.zip l.tail).map (fun p => Gate.CNOT p.1 p.2)) =
      (List.range (l.length - 1)).map
        (fun i => Gate.CNOT (l.getD i 0) (l.getD (i + 1) 0)) := by
  induction l with
  | nil => rfl
  | cons a rest ih =>
    cases rest with
    | nil => rfl
    | cons b tl =>
      have hzip : ((a :: b :: tl).zip (a :: b :: tl).tail) =
          (a, b) :: ((b :: tl).zip tl) := rfl
      have hlen : (a :: b :: tl : List Nat).length - 1 = tl.length + 1 := by
        simp
      have hcomp : ((fun i => Gate.CNOT ((a :: b :: tl).getD i 0)
          ((a :: b :: tl).getD (i + 1) 0)) ∘ Nat.succ) =
          (fun i => Gate.CNOT ((b :: tl).getD i 0)
            ((b :: tl).getD (i + 1) 0)) := by
        funext i
        simp
      rw [hzip, List.map_cons, hlen, List.range_succ_eq_map, List.map_cons,
        List.map_map, hcomp]
      exact congrArg₂ List.cons rfl (by simpa using ih)

theorem cnot_gates_eq (comps : List (Nat × Axis)) :
    (((comps.map Prod.fst).zip (comps.map Prod.fst).tail).map
        (fun p => Gate.CNOT p.1 p.2)) = cnot_staircase comps := by
  rw [zip_tail_cnot, cnot_staircase]
  simp [List.length_map]

/-- C1: for a nonempty Pauli term, the emitted gate sequence is exactly:
basis changes in term order, the CNOT staircase, the single
`RZ(2 * time * coefficient)` on the last qubit of the term, the CNOTs
reversed, and the basis reversals in original term order. -/
theorem time_evolution_for_term_gate_order (comps : List (Nat × Axis))
    (c t : Scalar) (h : comps ≠ []) :
    time_evolution_for_term ⟨[(comps, c)]⟩ t = .ok
      (basis_change_list comps ++ cnot_staircase comps ++
        Gate.RZ (Scalar.mulS (Scalar.mulS (.rat 2) t) c)
          ((comps.map Prod.fst).getLastD 0) ::
        ((cnot_staircase comps).reverse ++ basis_reversal_list comps)) := by
  obtain ⟨p, rest, rfl⟩ := List.exists_cons_of_ne_nil h
  show Except.ok (pauli_term_circuit (p :: rest) c t) = _
  congr 1
  simp only [pauli_term_circuit]
  rw [filterMap_base_change, filterMap_base_reversal, cnot_gates_eq]

/-- Witness for C1 at the spec's 2-qubit example term Z0 X1. -/
theorem time_evolution_for_term_gate_order_witness :
    ([((0 : Nat), Axis.Z), (1, Axis.X)] ≠ []) ∧
    time_evolution_for_term ⟨[([(0, Axis.Z), (1, Axis.X)], .rat 1)]⟩
        (.rat 1) = .ok
      (basis_change_list [(0, Axis.Z), (1, Axis.X)] ++
        cnot_staircase [(0, Axis.Z), (1, Axis.X)] ++
        Gate.RZ (Scalar.mulS (Scalar.mulS (.rat 2) (.rat 1)) (.rat 1))
          (([(0, Axis.Z), (1, Axis.X)].map Prod.fst).getLastD 0) ::
        ((cnot_staircase [(0, Axis.Z), (1, Axis.X)]).reverse ++
          basis_reversal_list [(0, Axis.Z), (1, Axis.X)])) :=
  ⟨by decide,
   time_evolution_for_term_gate_order [(0, Axis.Z), (1, Axis.X)]
     (.rat 1) (.rat 1) (by decide)⟩

/-! ### Claim: Trotter composition of `time_evolution` (C2) -/

theorem evolution_gen_ok (t : Scalar) (r : Nat) (hr : r ≠ 0)
    (L : List (List (Nat × Axis) × Scalar)) :
    evolution_gen t r (L.map (fun p => ⟨[p]⟩)) =
      .ok (L.map (fun p =>
        pauli_term_circuit p.1 p.2 (t.divS (.rat (r : ℚ))))) := by
  induction L with
  | nil => rfl
  | cons p rest ih =>
    obtain ⟨comps, coef⟩ := p
    simp only [List.map_cons, evolution_gen]
    rw [Scalar.divE_of_ne (rat_natCast_ne_zero hr)]
    simp only [ok_bind]
    rw [show time_evolution_for_term ⟨[(comps, coef)]⟩
        (t.divS (.rat (r : ℚ))) =
      .ok (pauli_term_circuit comps coef (t.divS (.rat (r : ℚ)))) from rfl]
    simp only [ok_bind]
    rw [ih]
    rfl

theorem flatMap_map_comm {α β γ : Type} (l : List α) (L : List β)
    (f : β → γ) :
    (l.flatMap (fun _ => L.map f)) = (l.flatMap (fun _ => L)).map f := by
  induction l with
  | nil => rfl
  | cons x xs ih => simp [List.flatMap_cons, ih]

theorem flatMap_const_ne_nil {α : Type} (r : Nat) (hr : 1 ≤ r) (L : List α)
    (hL : L ≠ []) : (List.range r).flatMap (fun _ => L) ≠ [] := by
  cases r with
  | zero => omega
  | succ n =>
    intro hc
    rw [List.range_succ_eq_map, List.flatMap_cons] at hc
    rcases List.append_eq_nil.mp hc with ⟨h1, _⟩
    exact hL h1

theorem foldl_append_flatten (c : Circuit) (rest : List Circuit) :
    rest.foldl (· ++ ·) c = (c :: rest).flatten := by
  induction rest generalizing c with
  | nil => simp
  | cons x xs ih =>
    rw [List.foldl_cons, ih (c ++ x)]
    simp [List.append_assoc]

/-- Success shape of `time_evolution` with the supported method: the
nested-loop concatenation of per-term circuits at angle `time / r`. -/
theorem time_evolution_trotter_ok (hamiltonian : QubitOperator) (t : Scalar)
    (r : Nat) (h1 : hamiltonian.terms ≠ []) (h2 : 1 ≤ r) :
    time_evolution hamiltonian t "Trotter" r = .ok
      ((((List.range r).flatMap (fun _ => hamiltonian.terms)).map
        (fun p => pauli_term_circuit p.1 p.2
          (t.divS (.rat (r : ℚ))))).flatten) := by
  unfold time_evolution
  rw [if_neg (by simp)]
  have hgen : (List.range r).flatMap (fun _ => get_operators hamiltonian) =
      ((List.range r).flatMap (fun _ => hamiltonian.terms)).map
        (fun p => (⟨[p]⟩ : QubitOperator)) := by
    rw [show get_operators hamiltonian =
      hamiltonian.terms.map (fun p => ⟨[p]⟩) from rfl]
    exact flatMap_map_comm _ _ _
  rw [hgen, evolution_gen_ok t r (by omega)]
  simp only [ok_bind]
  obtain ⟨x, xs, hx⟩ := List.exists_cons_of_ne_nil
    (flatMap_const_ne_nil r h2 hamiltonian.terms h1)
  rw [hx]
  simp only [List.map_cons, ok_bind, reduce_add]
  rw [foldl_append_flatten]

/-- C2: with method "Trotter" and positive trotter order `r`, the result is
the concatenation, repetition index outermost and term index innermost, of
the per-term circuits of `time_evolution_for_term`, each evaluated at angle
`time / r`. -/
theorem time_evolution_trotter_concat (hamiltonian : QubitOperator)
    (t : Scalar) (r : Nat) (h1 : hamiltonian.terms ≠ []) (h2 : 1 ≤ r) :
    (∀ comps cf, time_evolution_for_term ⟨[(comps, cf)]⟩
        (t.divS (.rat (r : ℚ))) =
      .ok (pauli_term_circuit comps cf (t.divS (.rat (r : ℚ))))) ∧
    time_evolution hamiltonian t "Trotter" r = .ok
      ((((List.range r).flatMap (fun _ => hamiltonian.terms)).map
        (fun p => pauli_term_circuit p.1 p.2
          (t.divS (.rat (r : ℚ))))).flatten) :=
  ⟨fun _ _ => rfl, time_evolution_trotter_ok hamiltonian t r h1 h2⟩

/-- Witness for C2 at the spec's instance: terms [Z0 with coefficient 1,
X1 with coefficient 3], trotter order 2 — the result is
(T1 at t/2) + (T2 at t/2) + (T1 at t/2) + (T2 at t/2) gate for gate. -/
theorem time_evolution_trotter_concat_witness :
    ((⟨[([(0, Axis.Z)], .rat 1), ([(1, Axis.X)], .rat 3)]⟩ :
        QubitOperator).terms ≠ []) ∧ (1 ≤ 2) ∧
    time_evolution ⟨[([(0, Axis.Z)], .rat 1), ([(1, Axis.X)], .rat 3)]⟩
        (.rat 1) "Trotter" 2 = .ok
      ((((List.range 2).flatMap (fun _ =>
          [([(0, Axis.Z)], Scalar.rat 1), ([(1, Axis.X)], Scalar.rat 3)])).map
        (fun p => pauli_term_circuit p.1 p.2
          ((Scalar.rat 1).divS (.rat ((2 : Nat) : ℚ))))).flatten) ∧
    ((((List.range 2).flatMap (fun _ =>
          [([(0, Axis.Z)], Scalar.rat 1), ([(1, Axis.X)], Scalar.rat 3)])).map
        (fun p => pauli_term_circuit p.1 p.2
          ((Scalar.rat 1).divS (.rat ((2 : Nat) : ℚ))))).flatten =
      pauli_term_circuit [(0, Axis.Z)] (.rat 1)
          ((Scalar.rat 1).divS (.rat ((2 : Nat) : ℚ))) ++
        (pauli_term_circuit [(1, Axis.X)] (.rat 3)
          ((Scalar.rat 1).divS (.rat ((2 : Nat) : ℚ))) ++
        (pauli_term_circuit [(0, Axis.Z)] (.rat 1)
          ((Scalar.rat 1).divS (.rat ((2 : Nat) : ℚ))) ++
        pauli_term_circuit [(1, Axis.X)] (.rat 3)
          ((Scalar.rat 1).divS (.rat ((2 : Nat) : ℚ)))))) :=
  ⟨by decide, by decide,
   (time_evolution_trotter_concat
     ⟨[([(0, Axis.Z)], .rat 1), ([(1, Axis.X)], .rat 3)]⟩
     (.rat 1) 2 (by decide) (by decide)).2,
   by with_unfolding_all decide⟩

/-! ### Claim: the parameter-shift and perturbed one-step circuit (C3) -/

theorem perturbed_terms_ok (t shift : Scalar) (r : Nat) (hr : r ≠ 0)
    (i : Nat) :
    ∀ (L : List (List (Nat × Axis) × Scalar)) (j0 : Nat),
    perturbed_terms t shift r i (L.map (fun p => ⟨[p]⟩)) j0 =
      .ok (((L.enumFrom j0).map (fun q => pauli_term_circuit q.2.1 q.2.2
        (if i = q.1 then
          Scalar.divS (Scalar.addS t shift) (.rat (r : ℚ))
         else Scalar.divS t (.rat (r : ℚ))))).flatten) := by
  intro L
  induction L with
  | nil => intro j0; rfl
  | cons p rest ih =>
    intro j0
    obtain ⟨comps, coef⟩ := p
    simp only [List.map_cons, perturbed_terms]
    rw [show List.enumFrom j0 ((comps, coef) :: rest) =
      (j0, (comps, coef)) :: List.enumFrom (j0 + 1) rest from rfl]
    rw [List.map_cons, List.flatten_cons]
    by_cases h : i = j0
    · simp only [if_pos h]
      rw [Scalar.divE_of_ne (rat_natCast_ne_zero hr)]
      simp only [ok_bind]
      rw [show time_evolution_for_term ⟨[(comps, coef)]⟩
          (Scalar.divS (Scalar.addS t shift) (Scalar.rat (r : ℚ))) =
        .ok (pauli_term_circuit comps coef
          (Scalar.divS (Scalar.addS t shift) (Scalar.rat (r : ℚ))))
        from rfl]
      simp only [ok_bind]
      rw [ih (j0 + 1)]
      simp only [ok_bind]
    · simp only [if_neg h]
      rw [Scalar.divE_of_ne (rat_natCast_ne_zero hr)]
      simp only [ok_bind]
      rw [show time_evolution_for_term ⟨[(comps, coef)]⟩
          (Scalar.divS t (Scalar.rat (r : ℚ))) =
        .ok (pauli_term_circuit comps coef
          (Scalar.divS t (Scalar.rat (r : ℚ)))) from rfl]
      simp only [ok_bind]
      rw [ih (j0 + 1)]
      simp only [ok_bind]

theorem single_shift_ok (L : List (List (Nat × Axis) × Scalar)) (t : Scalar)
    (r : Nat) (i : Nat) (comps1 : List (Nat × Axis)) (c s : ℚ)
    (hr : r ≠ 0) (hc : c ≠ 0) :
    single_shift (L.map (fun p => ⟨[p]⟩)) t r i ⟨[(comps1, .rat c)]⟩ s =
      .ok (single_shift_value L t r i c s) := by
  unfold single_shift
  rw [show first_coefficient ⟨[(comps1, Scalar.rat c)]⟩ = Scalar.rat c
    from rfl]
  have h1 : Scalar.divE (Scalar.rat c) (Scalar.rat (r : ℚ)) =
      .ok (Scalar.rat (c / (r : ℚ))) := by
    rw [Scalar.divE_of_ne (rat_natCast_ne_zero hr)]
    rfl
  rw [h1]
  simp only [ok_bind]
  have hq : (4 : ℚ) * (c / (r : ℚ)) ≠ 0 := by
    have hr2 : ((r : ℚ)) ≠ 0 := Nat.cast_ne_zero.mpr hr
    exact mul_ne_zero (by norm_num) (div_ne_zero hc hr2)
  have hne : Scalar.rat (4 * (c / (r : ℚ))) ≠ Scalar.rat 0 := by
    intro hcon
    apply hq
    injection hcon
  have h2 : Scalar.divE Scalar.pi
      (Scalar.mulS (Scalar.rat 4) (Scalar.rat (c / (r : ℚ)))) =
      .ok (Scalar.div Scalar.pi (Scalar.rat (4 * (c / (r : ℚ))))) := by
    rw [show Scalar.mulS (Scalar.rat 4) (Scalar.rat (c / (r : ℚ))) =
      Scalar.rat (4 * (c / (r : ℚ))) from rfl]
    rw [Scalar.divE_of_ne hne]
    rfl
  rw [h2]
  simp only [ok_bind]
  rw [perturbed_terms_ok t _ r hr i L 0]
  simp only [ok_bind]
  rfl

/-- C3: for a term with nonzero numeric coefficient `c` and shift sign
`s` in {+1, -1}, the loop body of `time_evolution_derivatives` uses the
shift `s * (pi / (4 * (c / trotter_order)))` and produces the perturbed
one-step circuit: the concatenation over all terms, in order, of the
per-term circuits, with only term `i` evaluated at angle
`(time + shift) / trotter_order` and every other term at
`time / trotter_order`; the recorded factor is `(c / trotter_order) * s`. -/
theorem single_shift_perturbed_structure
    (L : List (List (Nat × Axis) × Scalar)) (t : Scalar) (r : Nat) (i : Nat)
    (comps1 : List (Nat × Axis)) (c s : ℚ)
    (hr : 1 ≤ r) (hc : c ≠ 0) (hs : s = 1 ∨ s = -1) :
    single_shift (L.map (fun p => ⟨[p]⟩)) t r i ⟨[(comps1, .rat c)]⟩ s =
      .ok ((L.enum.map (fun q => pauli_term_circuit q.2.1 q.2.2
        (if i = q.1 then
          Scalar.divS (Scalar.addS t (shift_spec s c r)) (.rat (r : ℚ))
         else Scalar.divS t (.rat (r : ℚ))))).flatten,
       .rat (c / (r : ℚ) * s)) :=
  single_shift_ok L t r i comps1 c s (by omega) hc

/-- Counterexample to C3 as stated: for the numeric coefficient 0
(the claim quantifies over every numeric coefficient), the shift
`s * (pi / (4 * (c / trotter_order)))` is a division by zero —
`time_evolution_derivatives` raises `ZeroDivisionError` and no perturbed
circuit exists. -/
theorem zero_coefficient_derivatives_counterexample :
    time_evolution_derivatives ⟨[([(0, Axis.Z)], .rat 0)]⟩ (.rat 1)
      "Trotter" 1 = .error .zeroDivisionError := by
  with_unfolding_all decide

/-- Witness for C3 at a one-term Hamiltonian with coefficient 1,
trotter order 1, sign +1. -/
theorem single_shift_perturbed_structure_witness :
    (1 ≤ 1) ∧ ((1 : ℚ) ≠ 0) ∧ ((1 : ℚ) = 1 ∨ (1 : ℚ) = -1) ∧
    single_shift ([([(0, Axis.Z)], Scalar.rat 1)].map (fun p => ⟨[p]⟩))
        (.rat 1) 1 0 ⟨[([(0, Axis.Z)], .rat 1)]⟩ 1 =
      .ok (([([(0, Axis.Z)], Scalar.rat 1)].enum.map
          (fun q => pauli_term_circuit q.2.1 q.2.2
            (if 0 = q.1 then
              Scalar.divS (Scalar.addS (.rat 1) (shift_spec 1 1 1))
                (.rat ((1 : Nat) : ℚ))
             else Scalar.divS (.rat 1) (.rat ((1 : Nat) : ℚ))))).flatten,
       .rat ((1 : ℚ) / ((1 : Nat) : ℚ) * 1)) :=
  ⟨by decide, by decide, Or.inl rfl,
   single_shift_perturbed_structure [([(0, Axis.Z)], Scalar.rat 1)]
     (.rat 1) 1 0 [(0, Axis.Z)] 1 1 (by decide) (by decide) (Or.inl rfl)⟩

/-! ### Claim: derivative counts and factors (C4) -/

@[simp]
theorem single_shift_value_snd (LL : List (List (Nat × Axis) × Scalar))
    (t : Scalar) (r : Nat) (i : Nat) (c s : ℚ) :
    (single_shift_value LL t r i c s).2 = .rat (c / (r : ℚ) * s) := rfl

theorem derivative_pairs_ok (LL : List (List (Nat × Axis) × Scalar))
    (t : Scalar) (r : Nat) (hr : r ≠ 0) :
    ∀ (sub : List (List (Nat × Axis) × ℚ)) (i0 : Nat),
    (∀ p ∈ sub, p.2 ≠ 0) →
    derivative_pairs (LL.map (fun p => ⟨[p]⟩)) t r
      (sub.map (fun p => ⟨[(p.1, .rat p.2)]⟩)) i0 =
      .ok ((sub.enumFrom i0).flatMap (fun q =>
        [single_shift_value LL t r q.1 q.2.2 1,
         single_shift_value LL t r q.1 q.2.2 (-1)])) := by
  intro sub
  induction sub with
  | nil => intro i0 _; rfl
  | cons p rest ih =>
    intro i0 h
    obtain ⟨comps, c⟩ := p
    simp only [List.map_cons, derivative_pairs]
    rw [single_shift_ok LL t r i0 comps c 1 hr
      (h (comps, c) (List.mem_cons_self _ _))]
    simp only [ok_bind]
    rw [single_shift_ok LL t r i0 comps c (-1) hr
      (h (comps, c) (List.mem_cons_self _ _))]
    simp only [ok_bind]
    rw [ih (i0 + 1) (fun q hq => h q (List.mem_cons_of_mem _ hq))]
    simp only [ok_bind]
    rw [show List.enumFrom i0 ((comps, c) :: rest) =
      (i0, (comps, c)) :: List.enumFrom (i0 + 1) rest from rfl]
    rw [List.flatMap_cons]
    rfl

theorem pairs_map_snd (LL : List (List (Nat × Axis) × Scalar)) (t : Scalar)
    (r : Nat) :
    ∀ (sub : List (List (Nat × Axis) × ℚ)) (i0 : Nat),
    (((sub.enumFrom i0).flatMap (fun q =>
      [single_shift_value LL t r q.1 q.2.2 1,
       single_shift_value LL t r q.1 q.2.2 (-1)])).map Prod.snd) =
      sub.flatMap (fun p => [Scalar.rat (p.2 / (r : ℚ) * 1),
        Scalar.rat (p.2 / (r : ℚ) * (-1))]) := by
  intro sub
  induction sub with
  | nil => intro i0; rfl
  | cons p rest ih =>
    intro i0
    rw [show List.enumFrom i0 (p :: rest) =
      (i0, p) :: List.enumFrom (i0 + 1) rest from rfl]
    rw [List.flatMap_cons, List.flatMap_cons, List.map_append, ih (i0 + 1)]
    rfl

theorem pairs_length (LL : List (List (Nat × Axis) × Scalar)) (t : Scalar)
    (r : Nat) :
    ∀ (sub : List (List (Nat × Axis) × ℚ)) (i0 : Nat),
    ((sub.enumFrom i0).flatMap (fun q =>
      [single_shift_value LL t r q.1 q.2.2 1,
       single_shift_value LL t r q.1 q.2.2 (-1)])).length = 2 * sub.length := by
  intro sub
  induction sub with
  | nil => intro i0; rfl
  | cons p rest ih =>
    intro i0
    rw [show List.enumFrom i0 (p :: rest) =
      (i0, p) :: List.enumFrom (i0 + 1) rest from rfl]
    rw [List.flatMap_cons, List.length_append, ih (i0 + 1)]
    simp only [List.length_cons, List.length_nil]
    omega

theorem generate_circuit_sequence_ok (R D : Circuit) (len pos : Nat)
    (h : pos < len) :
    _generate_circuit_sequence R D len (pos : Int) =
      .ok (splice_value R D len pos) := by
  unfold _generate_circuit_sequence splice_value
  rw [if_neg (by exact_mod_cast Nat.not_le_of_lt h)]
  congr 2
  apply List.map_congr_left
  intro a _
  simp [Nat.cast_inj]

theorem splice_inner_ok (R : Circuit) (len pos : Nat) (h : pos < len) :
    ∀ (lst : List (Scalar × Circuit)),
    splice_inner R len pos lst =
      .ok (lst.map (fun q => (splice_value R q.2 len pos, q.1))) := by
  intro lst
  induction lst with
  | nil => rfl
  | cons q rest ih =>
    obtain ⟨f, d⟩ := q
    simp only [splice_inner]
    rw [generate_circuit_sequence_ok R d len pos h]
    simp only [ok_bind]
    rw [ih]
    simp only [ok_bind]
    rfl

theorem splice_outer_ok (R : Circuit) (len : Nat)
    (lst : List (Scalar × Circuit)) :
    ∀ (ps : List Nat), (∀ p ∈ ps, p < len) →
    splice_outer R len lst ps =
      .ok (ps.flatMap (fun pos => lst.map
        (fun q => (splice_value R q.2 len pos, q.1)))) := by
  intro ps
  induction ps with
  | nil => intro _; rfl
  | cons pos rest ih =>
    intro h
    simp only [splice_outer]
    rw [splice_inner_ok R len pos (h pos (List.mem_cons_self _ _)) lst]
    simp only [ok_bind]
    rw [ih (fun q hq => h q (List.mem_cons_of_mem _ hq))]
    simp only [ok_bind, List.flatMap_cons]

theorem map_flatMap_comm {α β γ : Type} (f : β → γ) :
    ∀ (l : List α) (F : α → List β),
    (l.flatMap F).map f = l.flatMap (fun x => (F x).map f) := by
  intro l
  induction l with
  | nil => intro F; rfl
  | cons x xs ih =>
    intro F
    rw [List.flatMap_cons, List.flatMap_cons, List.map_append, ih F]

theorem length_flatMap_const {α β : Type} (m : Nat) :
    ∀ (ps : List α) (F : α → List β), (∀ x ∈ ps, (F x).length = m) →
    (ps.flatMap F).length = ps.length * m := by
  intro ps
  induction ps with
  | nil => intro F _; simp
  | cons x rest ih =>
    intro F h
    rw [List.flatMap_cons, List.length_append,
      ih F (fun q hq => h q (List.mem_cons_of_mem _ hq)),
      h x (List.mem_cons_self _ _)]
    simp only [List.length_cons]
    ring

theorem derivative_pairs_ok_ham (L : List (List (Nat × Axis) × ℚ))
    (t : Scalar) (r : Nat) (hr : r ≠ 0) (h0 : ∀ p ∈ L, p.2 ≠ 0) :
    derivative_pairs
        (get_operators ⟨L.map (fun p => (p.1, Scalar.rat p.2))⟩) t r
        (get_operators ⟨L.map (fun p => (p.1, Scalar.rat p.2))⟩) 0 =
      .ok ((L.enumFrom 0).flatMap (fun q =>
        [single_shift_value (L.map (fun p => (p.1, Scalar.rat p.2)))
          t r q.1 q.2.2 1,
         single_shift_value (L.map (fun p => (p.1, Scalar.rat p.2)))
          t r q.1 q.2.2 (-1)])) := by
  have h2 : get_operators ⟨L.map (fun p => (p.1, Scalar.rat p.2))⟩ =
      L.map (fun p => ⟨[(p.1, Scalar.rat p.2)]⟩) := by
    show (L.map (fun p => (p.1, Scalar.rat p.2))).map
      (fun u => (⟨[u]⟩ : QubitOperator)) = _
    rw [List.map_map]
    rfl
  nth_rewrite 2 [h2]
  exact derivative_pairs_ok (L.map (fun p => (p.1, Scalar.rat p.2))) t r hr
    L 0 h0

/-- C4: for a Hamiltonian of `n` terms with nonzero numeric coefficients and
trotter order `r >= 1` (`n >= 1` when `r > 1`, since the `r > 1` branch
rebuilds the repeated one-step circuit), `time_evolution_derivatives`
returns exactly `2 n r` circuits and `2 n r` index-aligned factors; the
factor paired with the circuit for term `i` and sign `s` is
`(c_i / trotter_order) * s`, emitted per repetition slot in term-then-sign
order with `+1` before `-1`. -/
theorem time_evolution_derivatives_count_factors
    (L : List (List (Nat × Axis) × ℚ)) (t : Scalar) (r : Nat)
    (hr : 1 ≤ r) (h0 : ∀ p ∈ L, p.2 ≠ 0) (hne : r = 1 ∨ L ≠ []) :
    ∃ cs : List Circuit,
      time_evolution_derivatives ⟨L.map (fun p => (p.1, Scalar.rat p.2))⟩ t
        "Trotter" r = .ok (cs, factors_spec L r) ∧
      cs.length = 2 * L.length * r ∧
      (factors_spec L r).length = 2 * L.length * r := by
  have hfs_len : (factors_spec L r).length = 2 * L.length * r := by
    unfold factors_spec
    rw [length_flatMap_const (2 * L.length) (List.range r)]
    · rw [List.length_range]
      ring
    · intro x _
      rw [length_flatMap_const 2 L]
      · ring
      · intro q _
        rfl
  unfold time_evolution_derivatives
  rw [if_neg (by simp)]
  rw [derivative_pairs_ok_ham L t r (by omega) h0]
  simp only [ok_bind]
  by_cases hgt : r > 1
  · rw [if_pos hgt]
    have hL : L ≠ [] := by
      rcases hne with h | h
      · omega
      · exact h
    have hham : (QubitOperator.mk
        (L.map (fun p => (p.1, Scalar.rat p.2)))).terms ≠ [] := by
      intro hc
      exact hL (List.map_eq_nil_iff.mp hc)
    rw [time_evolution_trotter_ok _ t 1 hham (by omega)]
    simp only [ok_bind]
    rw [List.zip_map']
    rw [splice_outer_ok _ r _ (List.range r)
      (fun q hq => List.mem_range.mp hq)]
    simp only [ok_bind]
    have h1 : ∀ (R1 : Circuit) (pos : Nat),
        ((((L.enumFrom 0).flatMap (fun q =>
          [single_shift_value (L.map (fun p => (p.1, Scalar.rat p.2)))
            t r q.1 q.2.2 1,
           single_shift_value (L.map (fun p => (p.1, Scalar.rat p.2)))
            t r q.1 q.2.2 (-1)])).map (fun x => (x.2, x.1))).map
          (fun q => (splice_value R1 q.2 r pos, q.1))).map Prod.snd =
        ((L.enumFrom 0).flatMap (fun q =>
          [single_shift_value (L.map (fun p => (p.1, Scalar.rat p.2)))
            t r q.1 q.2.2 1,
           single_shift_value (L.map (fun p => (p.1, Scalar.rat p.2)))
            t r q.1 q.2.2 (-1)])).map Prod.snd := by
      intro R1 pos
      rw [List.map_map, List.map_map]
      rfl
    conv in List.map Prod.snd ((List.range r).flatMap _) =>
      rw [map_flatMap_comm]
    simp only [h1]
    rw [pairs_map_snd (L.map (fun p => (p.1, Scalar.rat p.2))) t r L 0]
    refine ⟨_, rfl, ?_, hfs_len⟩
    rw [List.length_map, length_flatMap_const (2 * L.length)
      (List.range r)]
    · rw [List.length_range]
      ring
    · intro pos _
      rw [List.length_map, List.length_map,
        pairs_length (L.map (fun p => (p.1, Scalar.rat p.2))) t r L 0]
  · have hr1 : r = 1 := by omega
    subst hr1
    rw [if_neg (by omega)]
    have hfs1 : factors_spec L 1 = L.flatMap (fun p =>
        [Scalar.rat (p.2 / ((1 : Nat) : ℚ) * 1),
         Scalar.rat (p.2 / ((1 : Nat) : ℚ) * (-1))]) := by
      unfold factors_spec
      rw [show List.range 1 = [0] from rfl, List.flatMap_cons,
        List.flatMap_nil, List.append_nil]
    rw [pairs_map_snd (L.map (fun p => (p.1, Scalar.rat p.2))) t 1 L 0,
      ← hfs1]
    refine ⟨_, rfl, ?_, hfs_len⟩
    rw [List.length_map,
      pairs_length (L.map (fun p => (p.1, Scalar.rat p.2))) t 1 L 0]
    ring

/-- Counterexample to C4 as stated: a Hamiltonian with n = 0 terms
(vacuously, all coefficients numeric) at trotter order 2 does not return
2*n*r = 0 pairs — the `trotter_order > 1` branch rebuilds the repeated
one-step circuit via `time_evolution`, whose `reduce` raises `TypeError` on
the empty term sequence. -/
theorem derivatives_empty_hamiltonian_counterexample :
    time_evolution_derivatives ⟨[]⟩ (.rat 1) "Trotter" 2 =
      .error (.typeError "reduce() of empty iterable with no initial value") := by
  decide

/-- Witness for C4: the single-term Hamiltonian 2*Z0 at trotter order 1
yields exactly two circuits with factors [+2, -2], in that order. -/
theorem time_evolution_derivatives_count_factors_witness :
    (1 ≤ 1) ∧ (∀ p ∈ [([((0 : Nat), Axis.Z)], (2 : ℚ))], p.2 ≠ 0) ∧
    (∃ cs : List Circuit,
      time_evolution_derivatives
          ⟨[([((0 : Nat), Axis.Z)], (2 : ℚ))].map
            (fun p => (p.1, Scalar.rat p.2))⟩ (.rat 1) "Trotter" 1 =
        .ok (cs, factors_spec [([((0 : Nat), Axis.Z)], (2 : ℚ))] 1) ∧
      cs.length = 2 * [([((0 : Nat), Axis.Z)], (2 : ℚ))].length * 1 ∧
      (factors_spec [([((0 : Nat), Axis.Z)], (2 : ℚ))] 1).length =
        2 * [([((0 : Nat), Axis.Z)], (2 : ℚ))].length * 1) ∧
    factors_spec [([((0 : Nat), Axis.Z)], (2 : ℚ))] 1 =
      [Scalar.rat 2, Scalar.rat (-2)] :=
  ⟨by decide, by decide,
   time_evolution_derivatives_count_factors
     [([((0 : Nat), Axis.Z)], (2 : ℚ))] (.rat 1) 1 (by decide)
     (by decide) (Or.inl rfl),
   by with_unfolding_all decide⟩

/-! ### Claim: the single-term check of `time_evolution_for_term` (C8) -/

/-- C8: `time_evolution_for_term` raises the malformed-term `ValueError`
exactly when the operator stores zero or more than one term, and returns a
circuit whenever it stores exactly one term. -/
theorem time_evolution_for_term_single_term_check (term : QubitOperator)
    (t : Scalar) :
    (term.terms.length ≠ 1 →
      time_evolution_for_term term t =
        .error (.valueError "This function works only on a single term.")) ∧
    (term.terms.length = 1 →
      ∃ c, time_evolution_for_term term t = .ok c) := by
  obtain ⟨ts⟩ := term
  constructor
  · intro h
    match ts, h with
    | [], _ => rfl
    | _ :: _ :: _, _ => rfl
    | [_], h => exact absurd rfl h
  · intro h
    match ts, h with
    | [(comps, coef)], _ =>
      exact ⟨pauli_term_circuit comps coef t, rfl⟩

/-- Witness for C8: a zero-term operator raises, a one-term operator does
not. -/
theorem time_evolution_for_term_single_term_check_witness :
    ((QubitOperator.mk []).terms.length ≠ 1 ∧
      time_evolution_for_term ⟨[]⟩ (.rat 1) =
        .error (.valueError "This function works only on a single term.")) ∧
    ((QubitOperator.mk [([(0, Axis.X)], .rat 1)]).terms.length = 1 ∧
      ∃ c, time_evolution_for_term ⟨[([(0, Axis.X)], .rat 1)]⟩ (.rat 1) =
        .ok c) :=
  ⟨⟨by decide,
    (time_evolution_for_term_single_term_check ⟨[]⟩ (.rat 1)).1 (by decide)⟩,
   ⟨by decide,
    (time_evolution_for_term_single_term_check ⟨[([(0, Axis.X)], .rat 1)]⟩
      (.rat 1)).2 (by decide)⟩⟩

/-! ### Claim: symbolic coefficients in the derivative builder (C9) -/

/-- C9 (code bug): for a Hamiltonian whose single term has the symbolic
coefficient `a`, `time_evolution_derivatives` raises no error at all.  The
terms produced by `get_operators` are `QubitOperator`s, so the coefficient is
read straight from the terms dict and divided by the trotter order — a sympy
expression divided by an int raises no `TypeError` — hence the
`except TypeError` guard that the docstring relies on ("symbolic expressions
aren't supported") is unreachable, and symbolic circuits and factors are
returned. -/
theorem symbolic_coefficient_no_error :
    time_evolution_derivatives ⟨[([(0, Axis.Z)], .sym "a")]⟩ (.rat 1)
      "Trotter" 1 =
    .ok ([[Gate.RZ (.mul (.mul (.rat 2) (.div (.add (.rat 1)
            (.mul (.rat 1) (.div .pi (.mul (.rat 4)
              (.div (.sym "a") (.rat 1)))))) (.rat 1))) (.sym "a")) 0],
          [Gate.RZ (.mul (.mul (.rat 2) (.div (.add (.rat 1)
            (.mul (.rat (-1)) (.div .pi (.mul (.rat 4)
              (.div (.sym "a") (.rat 1)))))) (.rat 1))) (.sym "a")) 0]],
         [.mul (.div (.sym "a") (.rat 1)) (.rat 1),
          .mul (.div (.sym "a") (.rat 1)) (.rat (-1))]) := by
  decide

end Evolution
